import Mathlib

/-!
Verification development for the crypto ETL pipeline
(`pipeline.py` and `pipeline_visualization.py`).

Modelling conventions:
* SQLite `REAL` values are modelled as `ℚ`.
* Timestamps are modelled by the unix time (`Int`, seconds).  The code
  stores `datetime.fromtimestamp(t, utc).isoformat()` — an injective,
  order-preserving rendering of the unix time — so the ISO string is
  modelled by the integer it encodes.
* The `candles` table is modelled as a list of rows in insertion order.
* `requests.get` and `time.sleep` are modelled by an oracle
  `http : Request → HttpResponse` and an explicit event trace.
-/

/-- One element of the Coinbase API candle response
`[time, low, high, open, close, volume]` (`pipeline.py` line 100). -/
structure Candle where
  time : Int
  low : ℚ
  high : ℚ
  open_p : ℚ
  close : ℚ
  volume : ℚ
deriving DecidableEq

/-- A row of the `candles` table created by `init_db`
(`pipeline.py` lines 32–42).  `timestamp` holds the unix time encoded by
the stored ISO string. -/
structure Row where
  timestamp : Int
  product_id : String
  low : ℚ
  high : ℚ
  open_p : ℚ
  close : ℚ
  volume : ℚ
deriving DecidableEq

/-- The `candles` table: rows in insertion order. -/
abbrev Table := List Row

/-- Fresh database produced by `init_db` (`pipeline.py` lines 18–44):
the `candles` table exists and is empty. -/
def init_db : Table := []

/-- Whether the table already holds a row with the given
`(timestamp, product_id)` primary key. -/
def keyPresent (t : Table) (ts : Int) (pid : String) : Bool :=
  t.any fun r => r.timestamp == ts && r.product_id == pid

/-- Semantics of `INSERT OR IGNORE INTO candles ...`
(`pipeline.py` lines 107–110) with the composite primary key
`(timestamp, product_id)`: if a row with the same key exists the
statement is a no-op, otherwise the row is appended. -/
def insert_or_ignore (t : Table) (r : Row) : Table :=
  if keyPresent t r.timestamp r.product_id then t else t ++ [r]

/-- The row built by `store_data` for one candle
(`pipeline.py` lines 100–110). -/
def rowOf (product_id : String) (c : Candle) : Row :=
  ⟨c.time, product_id, c.low, c.high, c.open_p, c.close, c.volume⟩

/-- Model of `store_data` (`pipeline.py` lines 92–116): for each candle, run
`INSERT OR IGNORE` and increment `count`; at the end commit and report
`count`.  Returns the new table state and the reported count.
With `INSERT OR IGNORE` the insert does not raise on a duplicate key, so
every iteration increments `count`. -/
def store_data : Table → String → List Candle → Table × Nat
  | t, _, [] => (t, 0)
  | t, product_id, c :: cs =>
      let t' := insert_or_ignore t (rowOf product_id c)
      let p := store_data t' product_id cs
      (p.1, p.2 + 1)

/-- Variant of `store_data` with an explicit failure oracle for the
`try`/`except sqlite3.Error` around the insert
(`pipeline.py` lines 106–113): when `fails c` the `cursor.execute`
raises, the handler prints and the loop continues; `count` is not
incremented.  The `Except` result models whether the call as a whole
raises: `.ok` means the loop finished and `conn.commit()` ran. -/
def store_data_exc (fails : Candle → Bool) :
    Table → String → List Candle → Except String (Table × Nat)
  | t, _, [] => .ok (t, 0)
  | t, product_id, c :: cs =>
      if fails c then
        store_data_exc fails t product_id cs
      else
        let t' := insert_or_ignore t (rowOf product_id c)
        match store_data_exc fails t' product_id cs with
        | .ok p => .ok (p.1, p.2 + 1)
        | .error e => .error e

/-- A whole run of `store_data` calls against one connection, as in
`run_pipeline` (`pipeline.py` lines 118–127). -/
def run_stores : Table → List (String × List Candle) → Table
  | t, [] => t
  | t, op :: ops => run_stores (store_data t op.1 op.2).1 ops

-- Sanity: the no-failure oracle agrees with `store_data`.
theorem store_data_exc_false (t : Table) (pid : String) (cs : List Candle) :
    store_data_exc (fun _ => false) t pid cs = .ok (store_data t pid cs) := by
  induction cs generalizing t with
  | nil => rfl
  | cons c cs ih =>
      simp [store_data_exc, store_data, ih]

/-- The query parameters of one `requests.get` issued by `fetch_candles`
(`pipeline.py` lines 66–72): the current sub-window's bounds (rendered
in ISO format, modelled by the times themselves) and the granularity. -/
structure Request where
  product_id : String
  start : Int
  stop : Int
  granularity : Int
deriving DecidableEq

/-- The response of one HTTP GET: status code and decoded JSON body
(a list of candles; an empty list models a falsy `data`). -/
structure HttpResponse where
  status : Int
  data : List Candle
deriving DecidableEq

/-- Observable side effects of `fetch_candles`: an HTTP GET
(`pipeline.py` line 72) or a `time.sleep` of the given number of
seconds (`pipeline.py` line 87). -/
inductive Event where
  | get : Request → Event
  | sleep : ℚ → Event
deriving DecidableEq

/-- The sequence of `(current_start, current_end)` sub-windows walked by
the `while current_start < end` loop of `fetch_candles`
(`pipeline.py` lines 57–84): `delta` is 300 minutes = 18000 seconds,
`current_end = current_start + delta` capped at `end`, and the next
iteration resumes at `current_end`. -/
def windows (cur e : Int) : List (Int × Int) :=
  if h : cur < e then
    let ce := if cur + 18000 > e then e else cur + 18000
    (cur, ce) :: windows ce e
  else []
termination_by (e - cur).toNat
decreasing_by
  split <;> omega

/-- What one sub-window contributes to `all_candles`
(`pipeline.py` lines 74–82): the decoded body when the status is 200
(extending by an empty, falsy body adds nothing), nothing otherwise. -/
def contrib (resp : HttpResponse) : List Candle :=
  if resp.status = 200 then resp.data else []

/-- Model of `fetch_candles` (`pipeline.py` lines 46–89), with `requests.get`
abstracted as the oracle `http`.  Returns the event trace (one GET per
sub-window followed by the fixed `time.sleep(0.5)`) and `all_candles`. -/
def fetch_candles (http : Request → HttpResponse) (product_id : String)
    (cur e granularity : Int) : List Event × List Candle :=
  if _h : cur < e then
    let ce := if cur + 18000 > e then e else cur + 18000
    let req : Request := ⟨product_id, cur, ce, granularity⟩
    let rest := fetch_candles http product_id ce e granularity
    (.get req :: .sleep (1/2) :: rest.1, contrib (http req) ++ rest.2)
  else ([], [])
termination_by (e - cur).toNat
decreasing_by
  split <;> omega

/-- The request `fetch_candles` builds for a sub-window. -/
def mkReq (product_id : String) (granularity : Int) (w : Int × Int) : Request :=
  ⟨product_id, w.1, w.2, granularity⟩

/-- The fetch loop is exactly the walk over `windows`: one GET plus one
0.5 s sleep per sub-window, and the concatenation of the per-window
contributions in window order. -/
theorem fetch_candles_eq (http : Request → HttpResponse) (pid : String)
    (cur e g : Int) :
    fetch_candles http pid cur e g =
      ((windows cur e).flatMap
        (fun w => [.get (mkReq pid g w), .sleep (1/2)]),
       (windows cur e).flatMap (fun w => contrib (http (mkReq pid g w)))) := by
  induction cur, e using windows.induct with
  | case1 cur e h ce ih =>
      have hce : (if cur + 18000 > e then e else cur + 18000) = ce := rfl
      rw [fetch_candles, windows]
      simp only [dif_pos h, hce, ih, List.flatMap_cons, mkReq]
      simp
  | case2 cur e h =>
      rw [fetch_candles, windows]
      simp [h]

/-- Unfolding of `windows` when the loop guard holds. -/
theorem windows_eq_cons (cur e : Int) (h : cur < e) :
    windows cur e = (cur, if cur + 18000 > e then e else cur + 18000) ::
      windows (if cur + 18000 > e then e else cur + 18000) e := by
  rw [windows]
  simp only [dif_pos h]

/-- Unfolding of `windows` when the loop guard fails. -/
theorem windows_eq_nil (cur e : Int) (h : ¬ cur < e) : windows cur e = [] := by
  rw [windows]
  simp only [dif_neg h]

/-- Every sub-window is nonempty, lies inside `[cur, e]`, and spans at
most 18000 seconds. -/
theorem windows_bounds (cur e : Int) :
    ∀ w ∈ windows cur e, cur ≤ w.1 ∧ w.1 < w.2 ∧ w.2 ≤ e ∧ w.2 - w.1 ≤ 18000 := by
  induction cur, e using windows.induct with
  | case1 cur e h ce ih =>
      have hce : (if cur + 18000 > e then e else cur + 18000) = ce := rfl
      have hfacts : ce = e ∨ (ce = cur + 18000 ∧ cur + 18000 ≤ e) := by
        rw [← hce]; split <;> omega
      intro w hw
      rw [windows_eq_cons cur e h, hce] at hw
      rcases List.mem_cons.mp hw with rfl | hw
      · show cur ≤ cur ∧ cur < ce ∧ ce ≤ e ∧ ce - cur ≤ 18000
        omega
      · have hb := ih w hw
        exact ⟨by omega, hb.2.1, hb.2.2.1, hb.2.2.2⟩
  | case2 cur e h =>
      intro w hw
      rw [windows_eq_nil cur e h] at hw
      simp at hw

/-- Consecutive sub-windows: each one starts where the previous ended. -/
theorem windows_chain (cur e : Int) :
    List.Chain' (fun a b => a.2 = b.1) (windows cur e) := by
  induction cur, e using windows.induct with
  | case1 cur e h ce ih =>
      have hce : (if cur + 18000 > e then e else cur + 18000) = ce := rfl
      rw [windows_eq_cons cur e h, hce]
      by_cases h2 : ce < e
      · rw [windows_eq_cons ce e h2] at ih ⊢
        exact List.chain'_cons.mpr ⟨rfl, ih⟩
      · rw [windows_eq_nil ce e h2]
        simp
  | case2 cur e h =>
      rw [windows_eq_nil cur e h]
      simp

/-- The first sub-window starts exactly at `cur`. -/
theorem windows_head_start (cur e : Int) (h : cur < e) :
    (windows cur e).head?.map Prod.fst = some cur := by
  rw [windows_eq_cons cur e h]
  rfl

/-- The last sub-window ends exactly at `e`. -/
theorem windows_last_stop (cur e : Int) :
    cur < e → (windows cur e).getLast?.map Prod.snd = some e := by
  induction cur, e using windows.induct with
  | case1 cur e h1 ce ih =>
      intro _
      have hce : (if cur + 18000 > e then e else cur + 18000) = ce := rfl
      have hfacts : ce = e ∨ (ce = cur + 18000 ∧ cur + 18000 ≤ e) := by
        rw [← hce]; split <;> omega
      rw [windows_eq_cons cur e h1, hce]
      by_cases h2 : ce < e
      · have ihh := ih h2
        rw [windows_eq_cons ce e h2] at ihh ⊢
        rw [List.getLast?_cons_cons]
        exact ihh
      · have hee : ce = e := by omega
        rw [windows_eq_nil ce e h2]
        simp [hee]
  | case2 cur e h1 =>
      intro hc
      exact absurd hc h1

/-- Every sub-window except the last spans exactly 18000 s = 300 min. -/
theorem windows_dropLast_span (cur e : Int) :
    ∀ w ∈ (windows cur e).dropLast, w.2 - w.1 = 18000 := by
  induction cur, e using windows.induct with
  | case1 cur e h ce ih =>
      have hce : (if cur + 18000 > e then e else cur + 18000) = ce := rfl
      have hfacts : ce = e ∨ (ce = cur + 18000 ∧ cur + 18000 ≤ e) := by
        rw [← hce]; split <;> omega
      rw [windows_eq_cons cur e h, hce]
      by_cases h2 : ce < e
      · have hne : windows ce e ≠ [] := by
          rw [windows_eq_cons ce e h2]; simp
        rw [List.dropLast_cons_of_ne_nil hne]
        intro w hw
        rcases List.mem_cons.mp hw with rfl | hw
        · show ce - cur = 18000
          omega
        · exact ih w hw
      · rw [windows_eq_nil ce e h2]
        intro w hw
        simp at hw
  | case2 cur e h =>
      rw [windows_eq_nil cur e h]
      intro w hw
      simp at hw

/-- Sub-window start times strictly increase, so the window list has no
duplicate entries (no request is ever repeated). -/
theorem windows_pairwise (cur e : Int) :
    List.Pairwise (fun a b => a.1 < b.1) (windows cur e) := by
  induction cur, e using windows.induct with
  | case1 cur e h ce ih =>
      have hce : (if cur + 18000 > e then e else cur + 18000) = ce := rfl
      have hfacts : ce = e ∨ (ce = cur + 18000 ∧ cur + 18000 ≤ e) := by
        rw [← hce]; split <;> omega
      rw [windows_eq_cons cur e h, hce]
      refine List.Pairwise.cons ?_ ih
      intro w hw
      have hb := windows_bounds ce e w hw
      show cur < w.1
      omega
  | case2 cur e h =>
      rw [windows_eq_nil cur e h]
      exact List.Pairwise.nil

/-- The window list has no duplicates. -/
theorem windows_nodup (cur e : Int) : (windows cur e).Nodup :=
  (windows_pairwise cur e).imp fun hlt => by
    intro hEq
    rw [hEq] at hlt
    exact lt_irrefl _ hlt

/-- A present key means some row of the table carries it. -/
theorem keyPresent_iff (t : Table) (ts : Int) (pid : String) :
    keyPresent t ts pid = true ↔ ∃ r ∈ t, r.timestamp = ts ∧ r.product_id = pid := by
  simp [keyPresent, List.any_eq_true]

/-- Inserting a row whose key is already present leaves the table
untouched. -/
theorem insert_or_ignore_of_present {t : Table} {r : Row}
    (h : keyPresent t r.timestamp r.product_id = true) :
    insert_or_ignore t r = t := by
  simp [insert_or_ignore, h]

/-- Effect of appending a row on `keyPresent`. -/
theorem keyPresent_append (t : Table) (r : Row) (ts : Int) (pid : String) :
    keyPresent (t ++ [r]) ts pid =
      (keyPresent t ts pid || (r.timestamp == ts && r.product_id == pid)) := by
  simp [keyPresent, List.any_append]

/-- Inserts never remove a key. -/
theorem keyPresent_insert {t : Table} (r : Row) {ts : Int} {pid : String}
    (h : keyPresent t ts pid = true) :
    keyPresent (insert_or_ignore t r) ts pid = true := by
  unfold insert_or_ignore
  split
  · exact h
  · rw [keyPresent_append, h, Bool.true_or]

/-- After inserting a row its key is present. -/
theorem keyPresent_insert_self (t : Table) (r : Row) :
    keyPresent (insert_or_ignore t r) r.timestamp r.product_id = true := by
  by_cases h : keyPresent t r.timestamp r.product_id = true
  · simp [insert_or_ignore, h]
  · have h2 : insert_or_ignore t r = t ++ [r] := by simp [insert_or_ignore, h]
    rw [h2, keyPresent_append]
    simp

/-- Keys are never removed by `store_data`. -/
theorem keyPresent_store {t : Table} {ts : Int} {p : String} {cs : List Candle}
    (h : keyPresent t ts p = true) :
    keyPresent (store_data t p cs).1 ts p = true := by
  induction cs generalizing t with
  | nil => exact h
  | cons c cs ih =>
      show keyPresent (store_data (insert_or_ignore t (rowOf p c)) p cs).1 ts p = true
      exact ih (keyPresent_insert _ h)

/-- After `store_data`, the key of every processed candle is present. -/
theorem store_mem_present (t : Table) (p : String) (cs : List Candle) :
    ∀ c ∈ cs, keyPresent (store_data t p cs).1 c.time p = true := by
  induction cs generalizing t with
  | nil => intro c hc; simp at hc
  | cons c cs ih =>
      intro c0 hc0
      rcases List.mem_cons.mp hc0 with rfl | hc0
      · show keyPresent (store_data (insert_or_ignore t (rowOf p c0)) p cs).1 c0.time p = true
        exact keyPresent_store (keyPresent_insert_self t (rowOf p c0))
      · show keyPresent (store_data (insert_or_ignore t (rowOf p c)) p cs).1 c0.time p = true
        exact ih _ c0 hc0

/-- Storing candles whose keys are all present is a no-op on the table. -/
theorem store_all_present {t : Table} {p : String} {cs : List Candle}
    (h : ∀ c ∈ cs, keyPresent t c.time p = true) :
    (store_data t p cs).1 = t := by
  induction cs generalizing t with
  | nil => rfl
  | cons c cs ih =>
      have h1 : insert_or_ignore t (rowOf p c) = t :=
        insert_or_ignore_of_present (h c (List.mem_cons_self c cs))
      show (store_data (insert_or_ignore t (rowOf p c)) p cs).1 = t
      rw [h1]
      exact ih fun c0 hc0 => h c0 (List.mem_cons_of_mem _ hc0)

/-- C2: `store_data` merges idempotently: for every table state,
product id and candle list, calling `store_data` twice with the same
arguments leaves the `candles` table exactly as calling it once. -/
theorem store_data_idempotent (t : Table) (pid : String) (cs : List Candle) :
    (store_data (store_data t pid cs).1 pid cs).1 = (store_data t pid cs).1 :=
  store_all_present (store_mem_present t pid cs)

/-- Primary-key projection of the table: the `(timestamp, product_id)`
pairs of its rows. -/
def keys (t : Table) : List (Int × String) :=
  t.map fun r => (r.timestamp, r.product_id)

/-- Membership form of `keyPresent`: the key projection view. -/
theorem keyPresent_iff_mem_keys (t : Table) (ts : Int) (pid : String) :
    keyPresent t ts pid = true ↔ (ts, pid) ∈ keys t := by
  rw [keyPresent_iff, keys]
  simp [Prod.ext_iff, eq_comm]

/-- Inserting preserves duplicate-freeness of the key projection. -/
theorem keys_nodup_insert {t : Table} (r : Row) (h : (keys t).Nodup) :
    (keys (insert_or_ignore t r)).Nodup := by
  by_cases hp : keyPresent t r.timestamp r.product_id = true
  · simpa [insert_or_ignore, hp] using h
  · have hnm : (r.timestamp, r.product_id) ∉ keys t := fun hm =>
      hp ((keyPresent_iff_mem_keys t _ _).mpr hm)
    have h2 : insert_or_ignore t r = t ++ [r] := by simp [insert_or_ignore, hp]
    rw [h2, keys, List.map_append]
    refine List.Nodup.append h (by simp) ?_
    intro k hk hk2
    simp only [List.map_cons, List.map_nil, List.mem_singleton] at hk2
    rw [hk2] at hk
    exact hnm hk

/-- Duplicate-freeness of the key projection is preserved by `store_data`. -/
theorem keys_nodup_store (t : Table) (p : String) (cs : List Candle)
    (h : (keys t).Nodup) : (keys (store_data t p cs).1).Nodup := by
  induction cs generalizing t with
  | nil => exact h
  | cons c cs ih =>
      show (keys (store_data (insert_or_ignore t (rowOf p c)) p cs).1).Nodup
      exact ih _ (keys_nodup_insert _ h)

/-- A whole pipeline run preserves duplicate-freeness of the keys. -/
theorem keys_nodup_run (ops : List (String × List Candle)) {t : Table}
    (h : (keys t).Nodup) : (keys (run_stores t ops)).Nodup := by
  induction ops generalizing t with
  | nil => exact h
  | cons op ops ih =>
      show (keys (run_stores (store_data t op.1 op.2).1 ops)).Nodup
      exact ih (keys_nodup_store t op.1 op.2 h)

/-- In a duplicate-free list every value occurs at most once; it occurs
exactly once when it is a member. -/
theorem countP_decide_eq_of_nodup {α : Type} [DecidableEq α] (l : List α)
    (a : α) (h : l.Nodup) :
    l.countP (fun x => decide (x = a)) = if a ∈ l then 1 else 0 := by
  induction l with
  | nil => simp
  | cons b l ih =>
      rw [List.countP_cons]
      rcases List.nodup_cons.mp h with ⟨hb, hl⟩
      by_cases hab : b = a
      · subst hab
        rw [ih hl]
        simp [hb]
      · have hab2 : ¬ a = b := fun hh => hab hh.symm
        rw [ih hl]
        simp [hab, hab2, List.mem_cons]

/-- C1: after `init_db` has created the `candles` table, any sequence of
`store_data` calls (any product ids, any candle lists) leaves at most
one row per `(timestamp, product_id)` pair in the table. -/
theorem candles_key_unique (ops : List (String × List Candle)) (ts : Int)
    (pid : String) :
    ((run_stores init_db ops).filter
        (fun r => decide (r.timestamp = ts ∧ r.product_id = pid))).length ≤ 1 := by
  have hnd : (keys (run_stores init_db ops)).Nodup :=
    keys_nodup_run ops (by simp [init_db, keys])
  rw [← List.countP_eq_length_filter]
  have hmap : (run_stores init_db ops).countP
        (fun r => decide (r.timestamp = ts ∧ r.product_id = pid))
      = (keys (run_stores init_db ops)).countP
        (fun k => decide (k = (ts, pid))) := by
    rw [keys, List.countP_map]
    congr 1
    funext r
    simp [Function.comp, Prod.ext_iff]
  rw [hmap, countP_decide_eq_of_nodup _ _ hnd]
  split <;> omega

/-- C8: when `store_data` processes a candle whose
`(timestamp, product_id)` key already exists, the table is left
completely unchanged — the existing row keeps its values and the new
candle's values are silently discarded (first write wins, no update). -/
theorem store_duplicate_ignored (t : Table) (pid : String) (c : Candle)
    (cs : List Candle) (h : keyPresent t c.time pid = true) :
    insert_or_ignore t (rowOf pid c) = t ∧
    (store_data t pid (c :: cs)).1 = (store_data t pid cs).1 := by
  have h1 : insert_or_ignore t (rowOf pid c) = t := insert_or_ignore_of_present h
  refine ⟨h1, ?_⟩
  show (store_data (insert_or_ignore t (rowOf pid c)) pid cs).1
      = (store_data t pid cs).1
  rw [h1]

/-- C8 witness: a stored row with key `(100, BTC-USD)` survives a second
candle with the same key and different values. -/
theorem store_duplicate_ignored_witness :
    keyPresent [⟨100, "BTC-USD", 1, 2, 3, 4, 5⟩]
        (Candle.mk 100 9 8 7 6 0).time ("BTC-USD") = true ∧
    (insert_or_ignore [⟨100, "BTC-USD", 1, 2, 3, 4, 5⟩]
        (rowOf "BTC-USD" (Candle.mk 100 9 8 7 6 0))
      = [⟨100, "BTC-USD", 1, 2, 3, 4, 5⟩] ∧
    (store_data [⟨100, "BTC-USD", 1, 2, 3, 4, 5⟩] "BTC-USD"
        [Candle.mk 100 9 8 7 6 0]).1
      = (store_data [⟨100, "BTC-USD", 1, 2, 3, 4, 5⟩] "BTC-USD" []).1) :=
  ⟨by decide,
   store_duplicate_ignored [⟨100, "BTC-USD", 1, 2, 3, 4, 5⟩] "BTC-USD"
     (Candle.mk 100 9 8 7 6 0) [] (by decide)⟩

/-- Inserting grows the table by at most one row. -/
theorem insert_or_ignore_length_le (t : Table) (r : Row) :
    (insert_or_ignore t r).length ≤ t.length + 1 := by
  unfold insert_or_ignore
  split
  · omega
  · simp

/-- Inserting never shrinks the table. -/
theorem insert_or_ignore_length_ge (t : Table) (r : Row) :
    t.length ≤ (insert_or_ignore t r).length := by
  unfold insert_or_ignore
  split
  · omega
  · simp

/-- The reported count equals the number of candles in the list: every
iteration of the loop increments `count`, because `INSERT OR IGNORE`
does not raise on a duplicate key. -/
theorem store_data_count (t : Table) (p : String) (cs : List Candle) :
    (store_data t p cs).2 = cs.length := by
  induction cs generalizing t with
  | nil => rfl
  | cons c cs ih =>
      show (store_data (insert_or_ignore t (rowOf p c)) p cs).2 + 1 = cs.length + 1
      rw [ih]

/-- At most one row is added per candle by `store_data`. -/
theorem store_data_length_le (t : Table) (p : String) (cs : List Candle) :
    (store_data t p cs).1.length ≤ t.length + cs.length := by
  induction cs generalizing t with
  | nil => simp [store_data]
  | cons c cs ih =>
      show (store_data (insert_or_ignore t (rowOf p c)) p cs).1.length
          ≤ t.length + (cs.length + 1)
      have h1 := ih (insert_or_ignore t (rowOf p c))
      have h2 := insert_or_ignore_length_le t (rowOf p c)
      omega

/-- Rows are never removed by `store_data`. -/
theorem store_data_length_ge (t : Table) (p : String) (cs : List Candle) :
    t.length ≤ (store_data t p cs).1.length := by
  induction cs generalizing t with
  | nil => simp [store_data]
  | cons c cs ih =>
      show t.length ≤ (store_data (insert_or_ignore t (rowOf p c)) p cs).1.length
      have h1 := ih (insert_or_ignore t (rowOf p c))
      have h2 := insert_or_ignore_length_ge t (rowOf p c)
      omega

/-- With at least one already-present key, at least one candle adds no
row. -/
theorem store_data_length_lt (t : Table) (p : String) (cs : List Candle)
    (h : ∃ c ∈ cs, keyPresent t c.time p = true) :
    (store_data t p cs).1.length + 1 ≤ t.length + cs.length := by
  induction cs generalizing t with
  | nil => rcases h with ⟨c, hc, _⟩; simp at hc
  | cons c cs ih =>
      rcases h with ⟨c0, hc0, hp⟩
      rcases List.mem_cons.mp hc0 with rfl | hc0
      · show (store_data (insert_or_ignore t (rowOf p c0)) p cs).1.length + 1
            ≤ t.length + (cs.length + 1)
        rw [insert_or_ignore_of_present hp]
        have h1 := store_data_length_le t p cs
        omega
      · show (store_data (insert_or_ignore t (rowOf p c)) p cs).1.length + 1
            ≤ t.length + (cs.length + 1)
        have h1 := ih (insert_or_ignore t (rowOf p c))
          ⟨c0, hc0, keyPresent_insert _ hp⟩
        have h2 := insert_or_ignore_length_le t (rowOf p c)
        omega

/-- C9: the count `store_data` reports counts every candle whose insert
executed, including duplicates that `INSERT OR IGNORE` discarded; so
when the list holds at least one already-stored key the reported count
strictly exceeds the number of rows actually added. -/
theorem store_count_overcounts (t : Table) (pid : String) (cs : List Candle)
    (h : ∃ c ∈ cs, keyPresent t c.time pid = true) :
    (store_data t pid cs).2 = cs.length ∧
    (store_data t pid cs).1.length - t.length < (store_data t pid cs).2 := by
  have h1 := store_data_count t pid cs
  have h2 := store_data_length_lt t pid cs h
  have h3 := store_data_length_ge t pid cs
  have h4 : 0 < cs.length := by
    rcases h with ⟨c, hc, _⟩
    exact List.length_pos.mpr (List.ne_nil_of_mem hc)
  exact ⟨h1, by omega⟩

/-- C9 witness: storing a single duplicate candle reports count 1 while
adding 0 rows. -/
theorem store_count_overcounts_witness :
    (∃ c ∈ [Candle.mk 100 9 8 7 6 0],
      keyPresent [⟨100, "BTC-USD", 1, 2, 3, 4, 5⟩] c.time ("BTC-USD") = true) ∧
    ((store_data [⟨100, "BTC-USD", 1, 2, 3, 4, 5⟩] "BTC-USD"
        [Candle.mk 100 9 8 7 6 0]).2 = [Candle.mk 100 9 8 7 6 0].length ∧
    (store_data [⟨100, "BTC-USD", 1, 2, 3, 4, 5⟩] "BTC-USD"
        [Candle.mk 100 9 8 7 6 0]).1.length
        - [(⟨100, "BTC-USD", 1, 2, 3, 4, 5⟩ : Row)].length
      < (store_data [⟨100, "BTC-USD", 1, 2, 3, 4, 5⟩] "BTC-USD"
        [Candle.mk 100 9 8 7 6 0]).2) :=
  ⟨by decide,
   store_count_overcounts [⟨100, "BTC-USD", 1, 2, 3, 4, 5⟩] "BTC-USD"
     [Candle.mk 100 9 8 7 6 0] (by decide)⟩

/-- C6: a `sqlite3.Error` raised while inserting one candle is caught;
the loop continues with the remaining candles, the call does not abort
(`Except.ok`, so the final `conn.commit()` runs), and the table ends up
exactly as if the failing candles had been absent, with the count equal
to the number of candles whose insert executed. -/
theorem store_failed_insert (fails : Candle → Bool) (t : Table)
    (pid : String) (cs : List Candle) :
    store_data_exc fails t pid cs
      = Except.ok (store_data t pid (cs.filter fun c => !fails c)) := by
  induction cs generalizing t with
  | nil => rfl
  | cons c cs ih =>
      by_cases hf : fails c = true
      · simp [store_data_exc, hf, List.filter_cons, ih]
      · simp only [store_data_exc, hf, Bool.false_eq_true, if_false, ih,
          List.filter_cons]
        simp [hf, store_data]

/-- C3: for start earlier than end, `fetch_candles` walks the interval
in consecutive sub-windows — the first starts at start, each one starts
where the previous ended, all but possibly the last span exactly 300
minutes, the last ends exactly at end — issuing one HTTP GET per
sub-window with that window's bounds as the start/end parameters, and
returns the concatenation of the per-window responses in chronological
window order. -/
theorem fetch_walk_spec (http : Request → HttpResponse) (pid : String)
    (g s e : Int) (h : s < e) :
    (windows s e).head?.map Prod.fst = some s ∧
    List.Chain' (fun a b => a.2 = b.1) (windows s e) ∧
    (∀ w ∈ (windows s e).dropLast, w.2 - w.1 = 18000) ∧
    (windows s e).getLast?.map Prod.snd = some e ∧
    (fetch_candles http pid s e g).1 =
      (windows s e).flatMap (fun w => [.get (mkReq pid g w), .sleep (1/2)]) ∧
    (fetch_candles http pid s e g).2 =
      (windows s e).flatMap (fun w => contrib (http (mkReq pid g w))) :=
  ⟨windows_head_start s e h, windows_chain s e, windows_dropLast_span s e,
   windows_last_stop s e h,
   by rw [fetch_candles_eq], by rw [fetch_candles_eq]⟩

/-- C3 witness: the walk from 0 to 20000 seconds. -/
theorem fetch_walk_spec_witness :
    (0 : Int) < 20000 ∧
    ((windows 0 20000).head?.map Prod.fst = some 0 ∧
     List.Chain' (fun a b => a.2 = b.1) (windows 0 20000) ∧
     (∀ w ∈ (windows 0 20000).dropLast, w.2 - w.1 = 18000) ∧
     (windows 0 20000).getLast?.map Prod.snd = some 20000 ∧
     (fetch_candles (fun _ => ⟨200, []⟩) "BTC-USD" 0 20000 60).1 =
       (windows 0 20000).flatMap
         (fun w => [.get (mkReq "BTC-USD" 60 w), .sleep (1/2)]) ∧
     (fetch_candles (fun _ => ⟨200, []⟩) "BTC-USD" 0 20000 60).2 =
       (windows 0 20000).flatMap
         (fun w => contrib ((fun _ => ⟨200, []⟩) (mkReq "BTC-USD" 60 w)))) :=
  ⟨by norm_num,
   fetch_walk_spec (fun _ => ⟨200, []⟩) "BTC-USD" 60 0 20000 (by norm_num)⟩

/-- C10: when start is not earlier than end the loop guard fails at
once: no HTTP request is issued and the empty list is returned. -/
theorem fetch_candles_no_window (http : Request → HttpResponse)
    (pid : String) (g s e : Int) (h : e ≤ s) :
    fetch_candles http pid s e g = ([], []) := by
  rw [fetch_candles]
  simp only [dif_neg (not_lt.mpr h)]

/-- C10 witness: start 5, end 3. -/
theorem fetch_candles_no_window_witness :
    (3 : Int) ≤ 5 ∧
    fetch_candles (fun _ => ⟨200, []⟩) "BTC-USD" 5 3 60 = ([], []) :=
  ⟨by norm_num,
   fetch_candles_no_window (fun _ => ⟨200, []⟩) "BTC-USD" 60 5 3 (by norm_num)⟩

/-- Requests over the same product and granularity are determined by
their window, so counting a request counts its window. -/
theorem countP_mkReq (pid : String) (g : Int) (w : Int × Int)
    (ws : List (Int × Int)) :
    ws.countP (fun w2 => decide (mkReq pid g w2 = mkReq pid g w))
      = ws.countP fun w2 => decide (w2 = w) := by
  congr 1
  funext w2
  exact decide_eq_decide.mpr
    (by simp [mkReq, Request.mk.injEq, Prod.ext_iff])

/-- Counting a GET event in the trace counts its window. -/
theorem trace_countP_get (pid : String) (g : Int) (r : Request)
    (ws : List (Int × Int)) :
    ((ws.flatMap fun w => [Event.get (mkReq pid g w), Event.sleep (1/2)]).countP
        fun ev => decide (ev = Event.get r))
      = ws.countP fun w => decide (mkReq pid g w = r) := by
  induction ws with
  | nil => rfl
  | cons w ws ih =>
      simp only [List.flatMap_cons, List.countP_append, List.countP_cons,
        List.countP_nil, ih]
      simp [eq_comm]
      exact Nat.add_comm _ _

/-- C7: a sub-window whose request fails (non-200 status) or returns an
empty body is not retried: its GET appears exactly once in the trace,
the loop still performs the fixed 0.5 s sleep and moves to the next
sub-window (the trace is one GET plus one sleep per window), and the
window contributes no elements to the returned list. -/
theorem fetch_failed_window (http : Request → HttpResponse) (pid : String)
    (g s e : Int) (w : Int × Int) (hw : w ∈ windows s e)
    (hfail : (http (mkReq pid g w)).status ≠ 200 ∨
      (http (mkReq pid g w)).data = []) :
    ((fetch_candles http pid s e g).1.countP
        fun ev => decide (ev = Event.get (mkReq pid g w))) = 1 ∧
    (fetch_candles http pid s e g).1 =
      (windows s e).flatMap
        (fun w2 => [.get (mkReq pid g w2), .sleep (1/2)]) ∧
    contrib (http (mkReq pid g w)) = [] ∧
    (fetch_candles http pid s e g).2 =
      (windows s e).flatMap (fun w2 => contrib (http (mkReq pid g w2))) := by
  have htr : (fetch_candles http pid s e g).1 =
      (windows s e).flatMap
        (fun w2 => [.get (mkReq pid g w2), .sleep (1/2)]) := by
    rw [fetch_candles_eq]
  have hres : (fetch_candles http pid s e g).2 =
      (windows s e).flatMap (fun w2 => contrib (http (mkReq pid g w2))) := by
    rw [fetch_candles_eq]
  have hcontrib : contrib (http (mkReq pid g w)) = [] := by
    rcases hfail with hs | hd
    · simp [contrib, hs]
    · simp [contrib, hd]
  refine ⟨?_, htr, hcontrib, hres⟩
  rw [htr, trace_countP_get, countP_mkReq,
    countP_decide_eq_of_nodup _ _ (windows_nodup s e), if_pos hw]

/-- C7 witness: a 500-status oracle over the walk from 0 to 20000. -/
theorem fetch_failed_window_witness :
    ((0 : Int), (18000 : Int)) ∈ windows 0 20000 ∧
    (((fun _ => (⟨500, []⟩ : HttpResponse))
        (mkReq "BTC-USD" 60 (0, 18000))).status ≠ 200 ∨
      ((fun _ => (⟨500, []⟩ : HttpResponse))
        (mkReq "BTC-USD" 60 (0, 18000))).data = []) ∧
    (((fetch_candles (fun _ => ⟨500, []⟩) "BTC-USD" 0 20000 60).1.countP
        fun ev => decide (ev = Event.get (mkReq "BTC-USD" 60 (0, 18000)))) = 1 ∧
     (fetch_candles (fun _ => ⟨500, []⟩) "BTC-USD" 0 20000 60).1 =
       (windows 0 20000).flatMap
         (fun w2 => [.get (mkReq "BTC-USD" 60 w2), .sleep (1/2)]) ∧
     contrib ((fun _ => (⟨500, []⟩ : HttpResponse))
        (mkReq "BTC-USD" 60 (0, 18000))) = [] ∧
     (fetch_candles (fun _ => ⟨500, []⟩) "BTC-USD" 0 20000 60).2 =
       (windows 0 20000).flatMap
         (fun w2 => contrib ((fun _ => (⟨500, []⟩ : HttpResponse))
           (mkReq "BTC-USD" 60 w2)))) := by
  have hw : ((0 : Int), (18000 : Int)) ∈ windows 0 20000 := by
    simp [windows]
  have hfail : (((fun _ => (⟨500, []⟩ : HttpResponse))
      (mkReq "BTC-USD" 60 (0, 18000))).status ≠ 200 ∨
      ((fun _ => (⟨500, []⟩ : HttpResponse))
        (mkReq "BTC-USD" 60 (0, 18000))).data = []) := by
    left
    norm_num
  exact ⟨hw, hfail,
    fetch_failed_window (fun _ => ⟨500, []⟩) "BTC-USD" 60 0 20000
      (0, 18000) hw hfail⟩

/-- C4 counterexample: with granularity 30 passed to `fetch_candles`,
the first request over the interval `[0, 20000]` spans 18000 seconds,
exceeding granularity × 300 = 9000 seconds — the window covers 600
candle intervals, not at most 300.  The sub-window size is the
hard-coded 300 minutes, not a function of the granularity argument. -/
theorem window_span_granularity_cex :
    Event.get ⟨"BTC-USD", 0, 18000, 30⟩
        ∈ (fetch_candles (fun _ => ⟨200, []⟩) "BTC-USD" 0 20000 30).1 ∧
    ¬ ((18000 : Int) - 0 ≤ 30 * 300) := by
  constructor
  · rw [fetch_candles_eq]
    simp [windows, mkReq]
  · norm_num

/-- C4 (amended): every request issued by `fetch_candles` spans at most
the hard-coded 18000 seconds (300 minutes), independent of the
granularity argument; that equals granularity × 300 seconds — at most
300 candle intervals per request — only for the configured granularity
of 60 seconds. -/
theorem fetch_window_span (http : Request → HttpResponse) (pid : String)
    (g s e : Int) (r : Request)
    (hr : Event.get r ∈ (fetch_candles http pid s e g).1) :
    r.stop - r.start ≤ 18000 ∧ (g = 60 → r.stop - r.start ≤ g * 300) := by
  rw [fetch_candles_eq] at hr
  simp only [List.mem_flatMap, List.mem_cons, List.mem_singleton,
    List.not_mem_nil, or_false] at hr
  obtain ⟨w, hw, hcase⟩ := hr
  rcases hcase with hEq | hEq
  · have hr2 : r = mkReq pid g w := by simpa using hEq
    have hb := windows_bounds s e w hw
    subst hr2
    constructor
    · show (mkReq pid g w).stop - (mkReq pid g w).start ≤ 18000
      simp only [mkReq]
      omega
    · intro hg
      subst hg
      show (mkReq pid (60:Int) w).stop - (mkReq pid (60:Int) w).start ≤ 60 * 300
      simp only [mkReq]
      omega
  · simp at hEq

/-- C4 amended-claim witness: the first request of the walk from 0 to
20000 at the configured granularity 60. -/
theorem fetch_window_span_witness :
    Event.get ⟨"BTC-USD", 0, 18000, 60⟩
        ∈ (fetch_candles (fun _ => ⟨200, []⟩) "BTC-USD" 0 20000 60).1 ∧
    ((⟨"BTC-USD", 0, 18000, 60⟩ : Request).stop
        - (⟨"BTC-USD", 0, 18000, 60⟩ : Request).start ≤ 18000 ∧
     ((60 : Int) = 60 → (⟨"BTC-USD", 0, 18000, 60⟩ : Request).stop
        - (⟨"BTC-USD", 0, 18000, 60⟩ : Request).start ≤ 60 * 300)) := by
  have hr : Event.get (⟨"BTC-USD", 0, 18000, 60⟩ : Request)
      ∈ (fetch_candles (fun _ => ⟨200, []⟩) "BTC-USD" 0 20000 60).1 := by
    rw [fetch_candles_eq]
    simp [windows, mkReq]
  exact ⟨hr, fetch_window_span (fun _ => ⟨200, []⟩) "BTC-USD" 60 0 20000
    ⟨"BTC-USD", 0, 18000, 60⟩ hr⟩

/-- Semantics of `strftime('%Y-%m-%d %H:00:00', timestamp)`
(`pipeline_visualization.py` line 166): two stored ISO timestamps
render to the same hour string exactly when their unix times lie in the
same UTC hour, i.e. have the same floor-division by 3600, and the
lexicographic order of the fixed-format strings is the numeric order of
this value. -/
def hourBucket (ts : Int) : Int := Int.fdiv ts 3600

/-- First-occurrence deduplication: the distinct group keys produced by
`GROUP BY`, each kept once. -/
def dedupFirst : List (String × Int) → List (String × Int)
  | [] => []
  | k :: ks => k :: ((dedupFirst ks).filter fun k2 => decide ¬(k2 = k))

/-- Membership is preserved exactly by `dedupFirst`. -/
theorem mem_dedupFirst (l : List (String × Int)) (k : String × Int) :
    k ∈ dedupFirst l ↔ k ∈ l := by
  induction l with
  | nil => simp [dedupFirst]
  | cons b l ih =>
      by_cases hkb : k = b
      · simp [dedupFirst, hkb]
      · simp [dedupFirst, List.mem_filter, hkb, ih]

/-- Duplicates are all removed by `dedupFirst`. -/
theorem nodup_dedupFirst (l : List (String × Int)) : (dedupFirst l).Nodup := by
  induction l with
  | nil => simp [dedupFirst]
  | cons b l ih =>
      rw [dedupFirst]
      refine List.nodup_cons.mpr ⟨?_, ?_⟩
      · intro hmem
        have h2 := (List.mem_filter.mp hmem).2
        simp at h2
      · exact List.Nodup.filter _ ih

/-- One output row of `fetch_aggregated_data`
(`pipeline_visualization.py` lines 163–172). -/
structure AggRow where
  product_id : String
  hour_bucket : Int
  hourly_avg_price : ℚ
  hourly_total_volume : ℚ
deriving DecidableEq

/-- The rows of one `GROUP BY product_id, hour_bucket` group: the
stored candles of that product whose timestamp lies in that hour. -/
def groupOf (t : Table) (k : String × Int) : Table :=
  t.filter fun r => decide (r.product_id = k.1 ∧ hourBucket r.timestamp = k.2)

/-- The aggregate row of one group: `AVG(close)` and `SUM(volume)`. -/
def aggRowOf (t : Table) (k : String × Int) : AggRow :=
  ⟨k.1, k.2, ((groupOf t k).map Row.close).sum / (groupOf t k).length,
   ((groupOf t k).map Row.volume).sum⟩

/-- Model of `fetch_aggregated_data` (`pipeline_visualization.py` lines 22–47):
the `GROUP BY product_id, hour_bucket` query with `AVG(close)`,
`SUM(volume)` and `ORDER BY hour_bucket ASC`. -/
def fetch_aggregated_data (t : Table) : List AggRow :=
  (((dedupFirst (t.map fun r => (r.product_id, hourBucket r.timestamp))).map
    (aggRowOf t)).mergeSort fun a b => decide (a.hour_bucket ≤ b.hour_bucket))

/-- C5: `fetch_aggregated_data` returns exactly one row per
`(product_id, hour bucket)` group present in `candles`, with
`hourly_avg_price` the arithmetic mean of the `close` values and
`hourly_total_volume` the sum of the `volume` values of the stored
candles of that product in that hour, ordered by hour bucket
ascending. -/
theorem fetch_aggregated_spec (t : Table) :
    (∀ k : String × Int,
      ((fetch_aggregated_data t).filter
          fun a => decide ((a.product_id, a.hour_bucket) = k)).length
        = if ∃ r ∈ t, (r.product_id, hourBucket r.timestamp) = k then 1
          else 0) ∧
    (∀ a ∈ fetch_aggregated_data t,
      a.hourly_avg_price
          = ((groupOf t (a.product_id, a.hour_bucket)).map Row.close).sum
              / (groupOf t (a.product_id, a.hour_bucket)).length ∧
      a.hourly_total_volume
          = ((groupOf t (a.product_id, a.hour_bucket)).map Row.volume).sum) ∧
    List.Pairwise (fun a b => a.hour_bucket ≤ b.hour_bucket)
      (fetch_aggregated_data t) := by
  refine ⟨?_, ?_, ?_⟩
  · intro k
    rw [← List.countP_eq_length_filter, fetch_aggregated_data,
      (List.mergeSort_perm _ _).countP_eq, List.countP_map]
    have hpred : ((fun a : AggRow =>
          decide ((a.product_id, a.hour_bucket) = k)) ∘ (aggRowOf t))
        = fun k2 => decide (k2 = k) := by
      funext k2
      simp [aggRowOf, Function.comp]
    rw [hpred, countP_decide_eq_of_nodup _ _ (nodup_dedupFirst _)]
    by_cases hex : ∃ r ∈ t, (r.product_id, hourBucket r.timestamp) = k
    · rw [if_pos, if_pos hex]
      rw [mem_dedupFirst]
      exact List.mem_map.mpr (by
        obtain ⟨r, hr, hrk⟩ := hex
        exact ⟨r, hr, hrk⟩)
    · rw [if_neg, if_neg hex]
      rw [mem_dedupFirst]
      intro hmem
      obtain ⟨r, hr, hrk⟩ := List.mem_map.mp hmem
      exact hex ⟨r, hr, hrk⟩
  · intro a ha
    rw [fetch_aggregated_data] at ha
    have ha2 := (List.mergeSort_perm _ _).mem_iff.mp ha
    obtain ⟨k, hk, rfl⟩ := List.mem_map.mp ha2
    constructor <;> simp [aggRowOf]
  · rw [fetch_aggregated_data]
    have hs := @List.sorted_mergeSort AggRow
      (fun a b : AggRow => decide (a.hour_bucket ≤ b.hour_bucket))
      (fun a b c hab hbc => by
        simp only [decide_eq_true_eq] at *
        omega)
      (fun a b => by
        simp only [Bool.or_eq_true, decide_eq_true_eq]
        omega)
      ((dedupFirst (t.map fun r => (r.product_id, hourBucket r.timestamp))).map
        (aggRowOf t))
    exact hs.imp fun hab => by simpa using hab

/-- C5 witness: two same-hour candles aggregate to one row whose fields
are the group's mean close and summed volume. -/
theorem fetch_aggregated_spec_witness :
    aggRowOf [⟨100, "BTC-USD", 1, 2, 3, 4, 5⟩, ⟨200, "BTC-USD", 1, 2, 3, 6, 7⟩]
        ("BTC-USD", 0)
      ∈ fetch_aggregated_data
        [⟨100, "BTC-USD", 1, 2, 3, 4, 5⟩, ⟨200, "BTC-USD", 1, 2, 3, 6, 7⟩] ∧
    ((aggRowOf [⟨100, "BTC-USD", 1, 2, 3, 4, 5⟩, ⟨200, "BTC-USD", 1, 2, 3, 6, 7⟩]
        ("BTC-USD", 0)).hourly_avg_price
      = ((groupOf [⟨100, "BTC-USD", 1, 2, 3, 4, 5⟩, ⟨200, "BTC-USD", 1, 2, 3, 6, 7⟩]
          ((aggRowOf [⟨100, "BTC-USD", 1, 2, 3, 4, 5⟩,
              ⟨200, "BTC-USD", 1, 2, 3, 6, 7⟩] ("BTC-USD", 0)).product_id,
           (aggRowOf [⟨100, "BTC-USD", 1, 2, 3, 4, 5⟩,
              ⟨200, "BTC-USD", 1, 2, 3, 6, 7⟩] ("BTC-USD", 0)).hour_bucket)).map
          Row.close).sum
        / (groupOf [⟨100, "BTC-USD", 1, 2, 3, 4, 5⟩, ⟨200, "BTC-USD", 1, 2, 3, 6, 7⟩]
          ((aggRowOf [⟨100, "BTC-USD", 1, 2, 3, 4, 5⟩,
              ⟨200, "BTC-USD", 1, 2, 3, 6, 7⟩] ("BTC-USD", 0)).product_id,
           (aggRowOf [⟨100, "BTC-USD", 1, 2, 3, 4, 5⟩,
              ⟨200, "BTC-USD", 1, 2, 3, 6, 7⟩] ("BTC-USD", 0)).hour_bucket)).length ∧
    (aggRowOf [⟨100, "BTC-USD", 1, 2, 3, 4, 5⟩, ⟨200, "BTC-USD", 1, 2, 3, 6, 7⟩]
        ("BTC-USD", 0)).hourly_total_volume
      = ((groupOf [⟨100, "BTC-USD", 1, 2, 3, 4, 5⟩, ⟨200, "BTC-USD", 1, 2, 3, 6, 7⟩]
          ((aggRowOf [⟨100, "BTC-USD", 1, 2, 3, 4, 5⟩,
              ⟨200, "BTC-USD", 1, 2, 3, 6, 7⟩] ("BTC-USD", 0)).product_id,
           (aggRowOf [⟨100, "BTC-USD", 1, 2, 3, 4, 5⟩,
              ⟨200, "BTC-USD", 1, 2, 3, 6, 7⟩] ("BTC-USD", 0)).hour_bucket)).map
          Row.volume).sum) := by
  have hkeys : dedupFirst
      (([⟨100, "BTC-USD", 1, 2, 3, 4, 5⟩, ⟨200, "BTC-USD", 1, 2, 3, 6, 7⟩] :
        Table).map fun r => (r.product_id, hourBucket r.timestamp))
      = [("BTC-USD", 0)] := by decide
  have hmem : aggRowOf
      [⟨100, "BTC-USD", 1, 2, 3, 4, 5⟩, ⟨200, "BTC-USD", 1, 2, 3, 6, 7⟩]
      ("BTC-USD", 0) ∈ fetch_aggregated_data
      [⟨100, "BTC-USD", 1, 2, 3, 4, 5⟩, ⟨200, "BTC-USD", 1, 2, 3, 6, 7⟩] := by
    rw [fetch_aggregated_data, hkeys]
    simp
  exact ⟨hmem, (fetch_aggregated_spec _).2.1 _ hmem⟩
